import Mathlib

/-!
Verification of the ofborg log-message-collector
(`src/ofborg/src/tasks/log_message_collector.rs`) against its
natural-language specification.

The Rust code is shallowly embedded: paths (`std::path::PathBuf` on Unix)
are lists of characters, the filesystem is an explicit association of
paths to file contents, and every fallible operation returns
`Except String`.  Components missing from the source tree
(`ofborg::writetoline::LineWriter`, the message structs, the `lru_cache`
crate and the `worker` action type) are modelled from the specification,
as marked in their doc comments.
-/

deriving instance DecidableEq for Except

namespace Ofborg

/-! ## Path model (Rust `std::path` on Unix) -/

/-- A parsed path component, mirroring Rust `std::path::Component`
(the Windows `Prefix` variant cannot arise on Unix). -/
inductive PathComponent where
  | rootDir
  | curDir
  | parentDir
  | normal (s : List Char)
deriving DecidableEq

/-- Split a character list at a separator character, returning the first
part and the remaining parts.  `splitParts sep s = (p, ps)` means the
parts of `s` are `p :: ps`. -/
def splitParts (sep : Char) : List Char → List Char × List (List Char)
  | [] => ([], [])
  | c :: rest =>
    let r := splitParts sep rest
    if c = sep then ([], r.1 :: r.2) else (c :: r.1, r.2)

/-- The `/`-separated parts of a path string (as Rust's component parser
sees them, before normalisation). -/
def pathParts (p : List Char) : List (List Char) :=
  (splitParts '/' p).1 :: (splitParts '/' p).2

/-- Normalise raw parts into components, mirroring Rust's component
iterator: empty parts (repeated or trailing separators) are dropped, `.`
parts are dropped except at the very beginning of a relative path, `..`
becomes `parentDir`, everything else is a `normal` component.  The flag
records whether we are still at the beginning of a relative path. -/
def goComps : Bool → List (List Char) → List PathComponent
  | _, [] => []
  | atStart, p :: ps =>
    if p = [] then goComps atStart ps
    else if p = ['.'] then
      (if atStart then PathComponent.curDir :: goComps false ps else goComps false ps)
    else if p = ['.', '.'] then PathComponent.parentDir :: goComps false ps
    else PathComponent.normal p :: goComps false ps

/-- Rust `Path::components()` on Unix: an absolute path contributes a
leading `rootDir`; the empty path has no components. -/
def pathComponents (p : List Char) : List PathComponent :=
  match p with
  | [] => []
  | c :: _ =>
    if c = '/' then PathComponent.rootDir :: goComps false (pathParts p)
    else goComps true (pathParts p)

/-- Rust `PathBuf::push` on Unix: an absolute argument replaces the whole
path, otherwise the argument is appended, with a `/` inserted unless the
base is empty or already ends with a separator. -/
def pushPath (base seg : List Char) : List Char :=
  if seg.head? = some '/' then seg
  else if base = [] then seg
  else if base.getLast? = some '/' then base ++ seg
  else base ++ '/' :: seg

/-- Rust `Path::starts_with`: component-wise prefix test. -/
def pathStartsWith (p base : List Char) : Bool :=
  let cb := pathComponents base
  decide ((pathComponents p).take cb.length = cb)

/-! ## Segment validation and path resolution (from the source) -/

/-- Whether a component is `Component::Normal(_)` (the predicate matched
by `validate_path_segment`'s `all`). -/
def isNormalComp : PathComponent → Bool
  | PathComponent.normal _ => true
  | _ => false

/-- Embeds `validate_path_segment` from the source: a segment must have
at least one component and every component must be `Normal`. -/
def validate_path_segment (segment : List Char) : Except String Unit :=
  let comps := pathComponents segment
  if comps.length = 0 then Except.error "Segment has no components"
  else if comps.all isNormalComp then Except.ok ()
  else Except.error "Path contained invalid components"

/-- The stream key, embedding `LogFrom` from the source. -/
structure LogFrom where
  routing_key : String
  attempt_id : String
deriving DecidableEq

/-- Embeds `LogMessageCollector::path_for_log`: clone the root, validate
and push the routing key, validate and push the attempt id, then
re-check that the joined path is still prefixed by the root. -/
def path_for_log (log_root : String) (f : LogFrom) : Except String (List Char) :=
  let location := log_root.data
  match validate_path_segment f.routing_key.data with
  | Except.error e => Except.error e
  | Except.ok _ =>
    let location := pushPath location f.routing_key.data
    match validate_path_segment f.attempt_id.data with
    | Except.error e => Except.error e
    | Except.ok _ =>
      let location := pushPath location f.attempt_id.data
      if pathStartsWith location log_root.data then Except.ok location
      else Except.error "Calculating the log location resulted in an invalid path"

/-! ## Rust `PathBuf::set_extension` -/

/-- Strip, from a reversed path, trailing separators and trailing bare
`.` components; this locates the end of the file name exactly as Rust's
`file_name`/`file_stem` do when the buffer ends in separators or `.`
components. -/
def stripJunk : List Char → List Char
  | [] => []
  | c :: rest =>
    if c = '/' then stripJunk rest
    else if c = '.' && (rest.head? = some '/' || rest = []) then stripJunk rest
    else c :: rest

/-- Rust `PathBuf::set_extension ext` (for non-empty `ext`): locate the
file name, drop its extension (the part after the last dot, unless the
only dot is leading), truncate the buffer there and append `.` and
`ext`.  If the path has no file stem (empty, root, or ending in `..`)
the path is returned unchanged, as `set_extension` returns `false`. -/
def setExtension (p : List Char) (ext : List Char) : List Char :=
  let r := stripJunk p.reverse
  let fnameRev := r.takeWhile (fun c => c ≠ '/')
  let prefRev := r.dropWhile (fun c => c ≠ '/')
  if fnameRev = [] ∨ fnameRev = ['.', '.'] then p
  else
    let beforeDot := fnameRev.takeWhile (fun c => c ≠ '.')
    let stemRev :=
      if beforeDot = fnameRev then fnameRev
      else
        let rest := fnameRev.drop (beforeDot.length + 1)
        if rest = [] then fnameRev else rest
    prefRev.reverse ++ stemRev.reverse ++ '.' :: ext

/-- Embeds `LogMessageCollector::path_for_metadata`: the log path with
its extension set to `metadata.json`. -/
def path_for_metadata (log_root : String) (f : LogFrom) : Except String (List Char) :=
  match path_for_log log_root f with
  | Except.error e => Except.error e
  | Except.ok p => Except.ok (setExtension p "metadata.json".data)

/-! ## Filesystem model

The collector's effects on disk are made explicit: `Fs` records the
contents of every file, the set of created directories, and the
environment-chosen set of paths on which `OpenOptions::open` fails with
an I/O error. -/

/-- Explicit filesystem state threaded through the stateful operations. -/
structure Fs where
  files : List (List Char × String)
  dirs : List (List Char)
  ioFail : List (List Char)
deriving DecidableEq

/-- The empty filesystem with no failing paths. -/
def Fs.empty : Fs := ⟨[], [], []⟩

/-- Content of the file at a path, if it exists. -/
def fileContent (fs : Fs) (p : List Char) : Option String :=
  (fs.files.find? (fun e => decide (e.1 = p))).map (fun e => e.2)

/-- Append text to an existing file's contents (files are opened in
append mode, so writes always go to the end). -/
def appendToFile (files : List (List Char × String)) (p : List Char) (s : String) :
    List (List Char × String) :=
  files.map (fun e => if e.1 = p then (e.1, e.2 ++ s) else e)

/-- The parent directory of a path: everything before the final
separator (a simplified model of `Path::parent`, used only to record
which directory `fs::create_dir_all` touches). -/
def parentOfPath (p : List Char) : List Char :=
  ((p.reverse.dropWhile (fun c => c ≠ '/')).dropWhile (fun c => c = '/')).reverse

/-- Embeds `LogMessageCollector::open_file`: create the parent
directories, then open the file with append+read+write+create.  The
returned handle is modelled by the path itself; an open failure (chosen
by the environment through `Fs.ioFail`) yields the error branch. -/
def open_file (fs : Fs) (path : List Char) : Fs × Except String (List Char) :=
  let fs1 : Fs := { fs with dirs := parentOfPath path :: fs.dirs }
  if fs.ioFail.contains path then
    (fs1, Except.error "Failed to open the file")
  else
    let files1 :=
      if (fs1.files.find? (fun e => decide (e.1 = path))).isSome then fs1.files
      else fs1.files ++ [(path, "")]
    ({ fs1 with files := files1 }, Except.ok path)

/-! ## LRU cache

Modelled from the spec: the `lru_cache` crate used for
`LruCache<LogFrom, LineWriter>` is not part of this repository.  The
spec describes it as a bounded mapping with access-order recency:
capacity fixed at construction, access promotes recency, and an
insertion that exceeds capacity evicts the least-recently-used entry,
synchronously releasing its resource.  Entries are kept in a list with
the most recently used first. -/
structure LruCache (α β : Type) where
  capacity : Nat
  entries : List (α × β)
deriving DecidableEq

/-- Whether a key is present (`LruCache::contains_key`). -/
def LruCache.containsKey {α β : Type} [DecidableEq α] (c : LruCache α β) (k : α) : Bool :=
  c.entries.any (fun e => decide (e.1 = k))

/-- The value stored for a key, without recency change. -/
def LruCache.findVal {α β : Type} [DecidableEq α] (c : LruCache α β) (k : α) : Option β :=
  (c.entries.find? (fun e => decide (e.1 = k))).map (fun e => e.2)

/-- Recency promotion performed by `LruCache::get_mut`: move the entry
for the key to the front. -/
def LruCache.promote {α β : Type} [DecidableEq α] (c : LruCache α β) (k : α) : LruCache α β :=
  match c.entries.find? (fun e => decide (e.1 = k)) with
  | some e => ⟨c.capacity, e :: c.entries.filter (fun e2 => !(decide (e2.1 = k)))⟩
  | none => c

/-- `LruCache::insert`: put the entry at the front (most recent) and
drop everything beyond capacity from the least-recent end, releasing the
evicted resources. -/
def LruCache.insertLru {α β : Type} [DecidableEq α] (c : LruCache α β) (k : α) (v : β) :
    LruCache α β :=
  ⟨c.capacity, ((k, v) :: c.entries.filter (fun e => !(decide (e.1 = k)))).take c.capacity⟩

/-! ## Sparse line writer

Modelled from the spec: `ofborg::writetoline::LineWriter` is not part
of this repository.  Per the spec, a writer owns one open resource and a
"lines emitted" cursor, initially zero for a fresh resource; `write`
emits `max(0, line_number - 1 - cursor)` blank terminated lines, then
the text, then one terminator, and sets `cursor = max(cursor,
line_number)`.  Here `write_to_line` takes the writer's own zero-based
index `n = line_number - 1`. -/
structure LineWriter where
  path : List Char
  cursor : Nat
deriving DecidableEq

/-- `LineWriter::new`: wrap a freshly opened handle with cursor zero. -/
def LineWriter.new (path : List Char) : LineWriter := ⟨path, 0⟩

/-- `LineWriter::write_to_line` at zero-based index `n`: append
`max(0, n - cursor)` blank lines, the text and a terminator to the
resource, and advance the cursor to `max(cursor, n + 1)`. -/
def LineWriter.write_to_line (fs : Fs) (w : LineWriter) (n : Nat) (text : String) :
    Fs × LineWriter :=
  let out := String.mk (List.replicate (n - w.cursor) '\n') ++ text ++ "\n"
  ({ fs with files := appendToFile fs.files w.path out },
   { w with cursor := max w.cursor (n + 1) })

/-! ## Messages -/

/-- Modelled from the spec: `BuildLogStart`
(`ofborg::message::buildlogmsg`, not in this repository) carries the
fields `system, identity, attempt_id, attempted_attrs, skipped_attrs`,
the last two optional. -/
structure BuildLogStart where
  system : String
  identity : String
  attempt_id : String
  attempted_attrs : Option (List String)
  skipped_attrs : Option (List String)
deriving DecidableEq

/-- Modelled from the spec: `BuildLogMsg` (a Chunk) carries the
identity, system, attempt id, a positive line number and the output
text. -/
structure BuildLogMsg where
  system : String
  identity : String
  attempt_id : String
  line_number : Nat
  output : String
deriving DecidableEq

/-- Modelled from the spec: `BuildResult` (a Finish event) carries the
attempt id; its result fields are opaque and unused downstream. -/
structure BuildResult where
  attempt_id : String
deriving DecidableEq

/-- Embeds the source's `MsgType`: the tagged union of the three decoded
shapes. -/
inductive MsgType where
  | Start (s : BuildLogStart)
  | Msg (m : BuildLogMsg)
  | Finish (r : BuildResult)
deriving DecidableEq

/-- Embeds the source's `LogMessage` (`from` is a Lean keyword, hence
`from_`). -/
structure LogMessage where
  from_ : LogFrom
  message : MsgType
deriving DecidableEq

/-- Modelled from the spec: `ofborg::worker::Action` (not in this
repository); the acknowledgement contract defines a single positive
acknowledgement action and no other action kinds. -/
inductive Action where
  | Ack
deriving DecidableEq

/-! ## Metadata serialization

Modelled from the spec: `serde_json::to_string` on `BuildLogStart`
serializes the fields in the fixed declaration order `system, identity,
attempt_id, attempted_attrs, skipped_attrs`; an absent optional field
serializes as `null`. -/

/-- JSON string escaping for the characters that require it. -/
def jsonEscapeChar (c : Char) : List Char :=
  if c = '"' then ['\\', '"']
  else if c = '\\' then ['\\', '\\']
  else if c = '\n' then ['\\', 'n']
  else if c = '\t' then ['\\', 't']
  else if c = '\r' then ['\\', 'r']
  else [c]

/-- A JSON string literal. -/
def jsonString (s : String) : String :=
  "\"" ++ String.mk (s.data.foldr (fun c acc => jsonEscapeChar c ++ acc) []) ++ "\""

/-- A JSON array of strings, or `null` for an absent optional field. -/
def jsonOptArray : Option (List String) → String
  | none => "null"
  | some xs => "[" ++ String.intercalate "," (xs.map jsonString) ++ "]"

/-- Serialization of a `BuildLogStart` in the fixed field order. -/
def serializeBuildLogStart (d : BuildLogStart) : String :=
  "\x7b\"system\":" ++ jsonString d.system ++
  ",\"identity\":" ++ jsonString d.identity ++
  ",\"attempt_id\":" ++ jsonString d.attempt_id ++
  ",\"attempted_attrs\":" ++ jsonOptArray d.attempted_attrs ++
  ",\"skipped_attrs\":" ++ jsonOptArray d.skipped_attrs ++ "\x7d"

/-! ## The collector -/

/-- Embeds `LogMessageCollector`: the bounded handle cache plus the
configured log root. -/
structure LogMessageCollector where
  handles : LruCache LogFrom LineWriter
  log_root : String
deriving DecidableEq

/-- Embeds `LogMessageCollector::new`. -/
def LogMessageCollector.new (log_root : String) (max_open : Nat) : LogMessageCollector :=
  ⟨⟨max_open, []⟩, log_root⟩

/-- Embeds `LogMessageCollector::write_metadata`: resolve the metadata
path, open it (append, create-if-missing), serialize the start event and
append the bytes.  Serialization is total for these structs, so the
`Err` branch of `serde_json::to_string` cannot arise in the model. -/
def write_metadata (fs : Fs) (self : LogMessageCollector) (f : LogFrom)
    (data : BuildLogStart) : Fs × Except String Unit :=
  match path_for_metadata self.log_root f with
  | Except.error e => (fs, Except.error e)
  | Except.ok metapath =>
    match open_file fs metapath with
    | (fs1, Except.error e) => (fs1, Except.error e)
    | (fs1, Except.ok p) =>
      ({ fs1 with files := appendToFile fs1.files p (serializeBuildLogStart data) },
       Except.ok ())

/-- Embeds `LogMessageCollector::handle_for`: a cached handle is
promoted and reused; otherwise the path is resolved, the file opened, a
fresh writer inserted (evicting beyond capacity) and fetched back via
`get_mut`. -/
def handle_for (fs : Fs) (self : LogMessageCollector) (f : LogFrom) :
    Fs × Except String LogMessageCollector :=
  if self.handles.containsKey f then
    (fs, Except.ok { self with handles := self.handles.promote f })
  else
    match path_for_log self.log_root f with
    | Except.error e => (fs, Except.error e)
    | Except.ok logpath =>
      match open_file fs logpath with
      | (fs1, Except.error e) => (fs1, Except.error e)
      | (fs1, Except.ok p) =>
        if (self.handles.insertLru f (LineWriter.new p)).containsKey f then
          (fs1, Except.ok
            { self with handles := (self.handles.insertLru f (LineWriter.new p)).promote f })
        else
          (fs1, Except.error "A just-inserted value should already be there")

/-- Write through the mutable reference returned by `handle_for`: the
cache entry for the key is updated in place. -/
def writeThrough (fs : Fs) (self : LogMessageCollector) (f : LogFrom) (n : Nat)
    (text : String) : Fs × LogMessageCollector :=
  match self.handles.findVal f with
  | none => (fs, self)
  | some w =>
    let r := LineWriter.write_to_line fs w n text
    (r.1, { self with
            handles := ⟨self.handles.capacity,
                        self.handles.entries.map (fun e => if e.1 = f then (f, r.2) else e)⟩ })

/-- Embeds `SimpleWorker::consumer` for `LogMessageCollector`: Start
writes the metadata sidecar (a failure is the `expect` panic, modelled
as the error branch), Msg writes the chunk through the cached handle at
index `line_number - 1`, Finish is a deliberate no-op; every branch that
completes returns the single action list `[Ack]`. -/
def consumer (fs : Fs) (self : LogMessageCollector) (job : LogMessage) :
    Fs × Except String (LogMessageCollector × List Action) :=
  match job.message with
  | MsgType.Start s =>
    match write_metadata fs self job.from_ s with
    | (fs1, Except.ok _) => (fs1, Except.ok (self, [Action.Ack]))
    | (fs1, Except.error e) => (fs1, Except.error ("failed to write metadata: " ++ e))
  | MsgType.Msg m =>
    match handle_for fs self job.from_ with
    | (fs1, Except.error e) => (fs1, Except.error e)
    | (fs1, Except.ok self1) =>
      ((writeThrough fs1 self1 job.from_ (m.line_number - 1) m.output).1,
       Except.ok ((writeThrough fs1 self1 job.from_ (m.line_number - 1) m.output).2,
                  [Action.Ack]))
  | MsgType.Finish _ => (fs, Except.ok (self, [Action.Ack]))

/-! ## Message classification

Embeds `SimpleWorker::msg_to_job`.  The three `serde_json::from_slice`
decoders live in code outside this repository, so they are abstracted as
parameters (modelled from the spec: structured decode of the raw payload
bytes against the known shapes); the fixed trial order and the
construction of the stream key are taken from the source. -/
def msg_to_job (dMsg : List Nat → Option BuildLogMsg)
    (dStart : List Nat → Option BuildLogStart)
    (dFinish : List Nat → Option BuildResult)
    (routing_key : String) (body : List Nat) : Except String LogMessage :=
  match dMsg body with
  | some m => Except.ok ⟨⟨routing_key, m.attempt_id⟩, MsgType.Msg m⟩
  | none =>
    match dStart body with
    | some s => Except.ok ⟨⟨routing_key, s.attempt_id⟩, MsgType.Start s⟩
    | none =>
      match dFinish body with
      | some r => Except.ok ⟨⟨routing_key, r.attempt_id⟩, MsgType.Finish r⟩
      | none => Except.error "failed to decode job"

/-! ## Concrete fixtures (the repository's own test inputs) -/

/-- A collector rooted at `/logs` with capacity 3, as in `make_worker`. -/
def workerFoo : LogMessageCollector := LogMessageCollector.new "/logs" 3

/-- The stream key produced by the test helper `make_from("foo")`. -/
def fromFoo : LogFrom := ⟨"routing-key-foo", "attempt-id-foo"⟩

/-- The resolved log path for `fromFoo` under `/logs`. -/
def logpathFoo : List Char := "/logs/routing-key-foo/attempt-id-foo".data

/-- The resolved metadata sidecar path for `fromFoo` under `/logs`. -/
def metapathFoo : List Char := "/logs/routing-key-foo/attempt-id-foo.metadata.json".data

/-- A Chunk job for `fromFoo` with the given line number and text. -/
def chunkJob (n : Nat) (t : String) : LogMessage :=
  ⟨fromFoo, MsgType.Msg ⟨"foobar-x8664", "my-identity", "my-attempt-id", n, t⟩⟩

/-- The Start event of the repository's `test_logs_collect`. -/
def startEvtFoo : BuildLogStart :=
  ⟨"foobar-x8664", "my-identity", "my-attempt-id", some ["foo"], some ["bar"]⟩

/-- The Start job dispatching `startEvtFoo` for `fromFoo`. -/
def startJobFoo : LogMessage := ⟨fromFoo, MsgType.Start startEvtFoo⟩

/-- A cache at capacity 2 holding two entries, the `a` entry most
recent. -/
def cacheAB : LruCache LogFrom LineWriter :=
  ⟨2, [(⟨"rk-a", "aid-a"⟩, ⟨"/logs/rk-a/aid-a".data, 0⟩),
       (⟨"rk-b", "aid-b"⟩, ⟨"/logs/rk-b/aid-b".data, 0⟩)]⟩

/-- A collector whose cache is full. -/
def workerFull : LogMessageCollector := ⟨cacheAB, "/logs"⟩

/-- The sidecar document the repository's test expects verbatim. -/
def startJsonFoo : String :=
  "\x7b\"system\":\"foobar-x8664\",\"identity\":\"my-identity\"" ++
  ",\"attempt_id\":\"my-attempt-id\",\"attempted_attrs\":[\"foo\"]" ++
  ",\"skipped_attrs\":[\"bar\"]\x7d"

/-! ## Helper lemmas about the path model -/

theorem splitParts_append (sep : Char) (xs ys : List Char) :
    splitParts sep (xs ++ sep :: ys) =
      ((splitParts sep xs).1,
       (splitParts sep xs).2 ++ (splitParts sep ys).1 :: (splitParts sep ys).2) := by
  induction xs with
  | nil => simp [splitParts]
  | cons c xs ih =>
    simp only [List.cons_append, splitParts]
    split <;> simp [ih]

theorem pathParts_append (xs ys : List Char) :
    pathParts (xs ++ '/' :: ys) = pathParts xs ++ pathParts ys := by
  simp [pathParts, splitParts_append]

theorem goComps_false_append (ps qs : List (List Char)) :
    goComps false (ps ++ qs) = goComps false ps ++ goComps false qs := by
  induction ps with
  | nil => simp [goComps]
  | cons p ps ih =>
    simp only [List.cons_append, goComps]
    split_ifs <;> simp [ih]

theorem goComps_cons (b : Bool) (p : List Char) (rest : List (List Char)) (hp : p ≠ []) :
    goComps b (p :: rest) = goComps b [p] ++ goComps false rest := by
  by_cases h1 : p = ['.']
  · subst h1; cases b <;> simp [goComps]
  · by_cases h2 : p = ['.', '.']
    · subst h2; simp [goComps]
    · simp [goComps, hp, h1, h2]

theorem goComps_true_append (p0 : List Char) (ps qs : List (List Char)) (hp : p0 ≠ []) :
    goComps true ((p0 :: ps) ++ qs) = goComps true (p0 :: ps) ++ goComps false qs := by
  rw [List.cons_append, goComps_cons true p0 (ps ++ qs) hp, goComps_false_append,
      goComps_cons true p0 ps hp, List.append_assoc]

theorem goComps_true_of_allNormal (ps : List (List Char))
    (h : ∀ x ∈ goComps true ps, isNormalComp x = true) :
    goComps false ps = goComps true ps := by
  induction ps with
  | nil => rfl
  | cons p ps ih =>
    by_cases h0 : p = []
    · subst h0
      simp only [goComps] at h ⊢
      exact ih h
    · by_cases h1 : p = ['.']
      · subst h1
        exfalso
        have := h PathComponent.curDir (by simp [goComps])
        simp [isNormalComp] at this
      · by_cases h2 : p = ['.', '.']
        · subst h2; simp [goComps]
        · simp [goComps, h0, h1, h2]

/-- The first raw part of a non-empty relative path is non-empty. -/
theorem pathParts_head_ne (c : Char) (rest : List Char) (hc : c ≠ '/') :
    pathParts (c :: rest) =
      (c :: (splitParts '/' rest).1) :: (splitParts '/' rest).2 := by
  simp [pathParts, splitParts, hc]

/-- Core concatenation property: appending `'/' :: seg` to a non-empty
base concatenates the component lists (with the appended part parsed in
non-initial position). -/
theorem comps_append_sep (base seg : List Char) (hb : base ≠ []) :
    pathComponents (base ++ '/' :: seg) =
      pathComponents base ++ goComps false (pathParts seg) := by
  obtain ⟨bc, brest, rfl⟩ : ∃ c r, base = c :: r := by
    cases base with
    | nil => exact absurd rfl hb
    | cons c r => exact ⟨c, r, rfl⟩
  by_cases hc : bc = '/'
  · subst hc
    have h1 : pathComponents ('/' :: brest ++ '/' :: seg) =
        PathComponent.rootDir :: goComps false (pathParts ('/' :: brest ++ '/' :: seg)) := by
      simp [pathComponents]
    have h2 : pathComponents ('/' :: brest) =
        PathComponent.rootDir :: goComps false (pathParts ('/' :: brest)) := by
      simp [pathComponents]
    rw [h1, h2]
    have h3 : ('/' :: brest) ++ '/' :: seg = '/' :: brest ++ '/' :: seg := rfl
    rw [← h3, pathParts_append, goComps_false_append]
    simp
  · have h1 : pathComponents (bc :: brest ++ '/' :: seg) =
        goComps true (pathParts (bc :: brest ++ '/' :: seg)) := by
      simp [pathComponents, hc]
    have h2 : pathComponents (bc :: brest) = goComps true (pathParts (bc :: brest)) := by
      simp [pathComponents, hc]
    rw [h1, h2]
    have h3 : (bc :: brest) ++ '/' :: seg = bc :: brest ++ '/' :: seg := rfl
    rw [← h3, pathParts_append]
    rw [pathParts_head_ne bc brest hc]
    have hne : (bc :: (splitParts '/' brest).1) ≠ [] := by simp
    exact goComps_true_append _ _ _ hne

theorem validate_ok_parts (s : List Char) (h : validate_path_segment s = Except.ok ()) :
    pathComponents s ≠ [] ∧ (pathComponents s).all isNormalComp = true := by
  simp only [validate_path_segment] at h
  split_ifs at h with h1 h2
  exact ⟨fun hh => h1 (by rw [hh]; rfl), h2⟩

theorem validate_ok_shape (s : List Char) (h : validate_path_segment s = Except.ok ()) :
    s ≠ [] ∧ s.head? ≠ some '/' := by
  obtain ⟨hne, hall⟩ := validate_ok_parts s h
  constructor
  · intro hs
    subst hs
    exact hne rfl
  · intro hh
    obtain ⟨t, rfl⟩ : ∃ t, s = '/' :: t := by
      cases s with
      | nil => cases hh
      | cons c t =>
        simp only [List.head?] at hh
        exact ⟨t, by rw [Option.some_inj.mp hh]⟩
    have hcomps : pathComponents ('/' :: t) =
        PathComponent.rootDir :: goComps false (pathParts ('/' :: t)) := by
      simp [pathComponents]
    rw [hcomps] at hall
    have := (List.all_eq_true.mp hall) PathComponent.rootDir (by simp)
    simp [isNormalComp] at this

/-- A valid segment parsed in non-initial position yields the same
components as parsed standalone. -/
theorem goComps_false_pathParts (s : List Char) (h : validate_path_segment s = Except.ok ()) :
    goComps false (pathParts s) = pathComponents s := by
  obtain ⟨hne, hhead⟩ := validate_ok_shape s h
  obtain ⟨hcne, hall⟩ := validate_ok_parts s h
  obtain ⟨c, t, rfl⟩ : ∃ c t, s = c :: t := by
    cases s with
    | nil => exact absurd rfl hne
    | cons c t => exact ⟨c, t, rfl⟩
  have hc : c ≠ '/' := by
    intro hh
    exact hhead (by rw [hh]; rfl)
  have hrel : pathComponents (c :: t) = goComps true (pathParts (c :: t)) := by
    simp [pathComponents, hc]
  rw [hrel]
  apply goComps_true_of_allNormal
  intro x hx
  exact (List.all_eq_true.mp (by rw [hrel] at hall; exact hall)) x hx

/-- Main concatenation lemma: pushing a validated segment appends its
components. -/
theorem comps_pushPath (base seg : List Char) (h : validate_path_segment seg = Except.ok ()) :
    pathComponents (pushPath base seg) = pathComponents base ++ pathComponents seg := by
  obtain ⟨hne, hhead⟩ := validate_ok_shape seg h
  unfold pushPath
  rw [if_neg hhead]
  by_cases hb : base = []
  · subst hb
    simp [pathComponents]
  · rw [if_neg hb]
    by_cases hl : base.getLast? = some '/'
    · rw [if_pos hl]
      obtain ⟨b', rfl⟩ : ∃ b', base = b' ++ ['/'] := by
        refine ⟨base.dropLast, ?_⟩
        have h1 := List.dropLast_append_getLast (l := base) hb
        have h2 : base.getLast hb = '/' := by
          have := List.getLast?_eq_getLast base hb
          rw [this] at hl
          exact Option.some_inj.mp hl
        rw [h2] at h1
        exact h1.symm
      by_cases hb' : b' = []
      · subst hb'
        simp only [List.nil_append]
        have h1 : (['/'] : List Char) ++ seg = '/' :: seg := rfl
        rw [h1]
        have h2 : pathComponents ('/' :: seg) =
            PathComponent.rootDir :: goComps false (pathParts ('/' :: seg)) := by
          simp [pathComponents]
        have h3 : pathParts ('/' :: seg) = [] :: pathParts seg := by
          simp [pathParts, splitParts]
        have h4 : pathComponents ['/'] = [PathComponent.rootDir] := by decide
        rw [h2, h3, h4]
        have h5 : goComps false ([] :: pathParts seg) = goComps false (pathParts seg) := by
          simp [goComps]
        rw [h5, goComps_false_pathParts seg h]
        rfl
      · have h1 : (b' ++ ['/']) ++ seg = b' ++ '/' :: seg := by simp
        rw [h1, comps_append_sep b' seg hb']
        have h2 : b' ++ ['/'] = b' ++ '/' :: ([] : List Char) := rfl
        rw [h2, comps_append_sep b' [] hb']
        have h3 : goComps false (pathParts []) = [] := by decide
        rw [h3, goComps_false_pathParts seg h]
        simp
    · rw [if_neg hl, comps_append_sep base seg hb, goComps_false_pathParts seg h]

/-- Resolution succeeds on validated segments and returns the joined
path. -/
theorem path_for_log_ok (root : String) (f : LogFrom)
    (h1 : validate_path_segment f.routing_key.data = Except.ok ())
    (h2 : validate_path_segment f.attempt_id.data = Except.ok ()) :
    path_for_log root f =
      Except.ok (pushPath (pushPath root.data f.routing_key.data) f.attempt_id.data) := by
  have hsw : pathStartsWith
      (pushPath (pushPath root.data f.routing_key.data) f.attempt_id.data) root.data = true := by
    unfold pathStartsWith
    rw [comps_pushPath _ _ h2, comps_pushPath _ _ h1, List.append_assoc]
    simp [List.take_left]
  simp only [path_for_log, h1, h2, hsw, if_true]

/-! ## Helper lemmas about `setExtension` -/

theorem stripJunk_plain (c : Char) (t : List Char) (h1 : c ≠ '/') (h2 : c ≠ '.') :
    stripJunk (c :: t) = c :: t := by
  simp [stripJunk, h1, h2]

theorem takeWhile_ne_append (sep : Char) (xs ys : List Char) (hx : sep ∉ xs)
    (hy : ys.head? = some sep) :
    (xs ++ ys).takeWhile (fun c => c ≠ sep) = xs ∧
    (xs ++ ys).dropWhile (fun c => c ≠ sep) = ys := by
  induction xs with
  | nil =>
    obtain ⟨t, rfl⟩ : ∃ t, ys = sep :: t := by
      cases ys with
      | nil => cases hy
      | cons y t => exact ⟨t, by rw [Option.some_inj.mp hy]⟩
    constructor
    · exact List.takeWhile_cons_of_neg (by simp)
    · exact List.dropWhile_cons_of_neg (by simp)
  | cons x xs ih =>
    have hxne : x ≠ sep := fun hh => hx (by rw [hh]; exact List.mem_cons_self _ _)
    have ht := ih (fun hh => hx (List.mem_cons_of_mem _ hh))
    constructor
    · rw [List.cons_append, List.takeWhile_cons_of_pos (by simpa using hxne), ht.1]
    · rw [List.cons_append, List.dropWhile_cons_of_pos (by simpa using hxne), ht.2]

theorem takeWhile_ne_all (sep : Char) (xs : List Char) (hx : sep ∉ xs) :
    xs.takeWhile (fun c => c ≠ sep) = xs := by
  induction xs with
  | nil => rfl
  | cons x xs ih =>
    have hxne : x ≠ sep := fun hh => hx (by rw [hh]; exact List.mem_cons_self _ _)
    have ht := ih (fun hh => hx (List.mem_cons_of_mem _ hh))
    rw [List.takeWhile_cons_of_pos (by simpa using hxne), ht]

/-- Core `set_extension` computation: when the buffer ends in a
non-empty file name without dots or separators, the extension is simply
appended. -/
theorem setExtension_plain (L aid r ext : List Char)
    (hL : L.reverse = aid.reverse ++ r) (ha : aid ≠ [])
    (hdot : '.' ∉ aid) (hslash : '/' ∉ aid) (hr : r.head? = some '/') :
    setExtension L ext = L ++ '.' :: ext := by
  obtain ⟨c0, rest, hrev⟩ : ∃ c t, aid.reverse = c :: t := by
    cases hh : aid.reverse with
    | nil => exact absurd (by simpa using congrArg List.reverse hh) ha
    | cons c t => exact ⟨c, t, rfl⟩
  have hc0 : c0 ∈ aid := by
    have : c0 ∈ aid.reverse := by rw [hrev]; exact List.mem_cons_self _ _
    simpa using this
  have hc0s : c0 ≠ '/' := fun hh => hslash (hh ▸ hc0)
  have hc0d : c0 ≠ '.' := fun hh => hdot (hh ▸ hc0)
  have hstrip : stripJunk L.reverse = aid.reverse ++ r := by
    rw [hL, hrev, List.cons_append, stripJunk_plain c0 _ hc0s hc0d]
  have hslashrev : '/' ∉ aid.reverse := by simpa using hslash
  have hdotrev : '.' ∉ aid.reverse := by simpa using hdot
  have htd := takeWhile_ne_append '/' aid.reverse r hslashrev hr
  have hfname_ne : aid.reverse ≠ [] := by rw [hrev]; simp
  have hfname_nd : aid.reverse ≠ ['.', '.'] := by
    intro hh
    exact hdotrev (by rw [hh]; exact List.mem_cons_self _ _)
  simp only [setExtension, hstrip, htd.1, htd.2]
  rw [if_neg (by simp [hfname_ne, hfname_nd])]
  rw [takeWhile_ne_all '.' aid.reverse hdotrev, if_pos rfl]
  have hLrw : L = r.reverse ++ aid := by
    have := congrArg List.reverse hL
    simpa using this
  rw [hLrw]
  simp

/-- On validated segments, a non-empty base pushed with a segment is
non-empty. -/
theorem pushPath_ne_nil (base seg : List Char) (hs : seg ≠ []) : pushPath base seg ≠ [] := by
  unfold pushPath
  split_ifs <;> simp [hs]

/-- A failing segment yields an error from `validate_path_segment`. -/
theorem validate_error_of_bad (s : List Char)
    (h : pathComponents s = [] ∨ ¬ (pathComponents s).all isNormalComp = true) :
    ∃ e, validate_path_segment s = Except.error e := by
  simp only [validate_path_segment]
  rcases h with h | h
  · exact ⟨_, by rw [if_pos (by rw [h]; rfl)]⟩
  · by_cases h0 : (pathComponents s).length = 0
    · exact ⟨_, by rw [if_pos h0]⟩
    · exact ⟨_, by rw [if_neg h0, if_neg h]⟩

/-- A bad routing key or attempt id makes `path_for_log` fail. -/
theorem path_for_log_error_of_bad (root : String) (f : LogFrom)
    (hbad : (pathComponents f.routing_key.data = [] ∨
             ¬ (pathComponents f.routing_key.data).all isNormalComp = true) ∨
            (pathComponents f.attempt_id.data = [] ∨
             ¬ (pathComponents f.attempt_id.data).all isNormalComp = true)) :
    ∃ e, path_for_log root f = Except.error e := by
  rcases hbad with hbad | hbad
  · obtain ⟨e, he⟩ := validate_error_of_bad _ hbad
    exact ⟨e, by simp [path_for_log, he]⟩
  · obtain ⟨e, he⟩ := validate_error_of_bad _ hbad
    cases hv : validate_path_segment f.routing_key.data with
    | error e1 => exact ⟨e1, by simp [path_for_log, hv]⟩
    | ok u => exact ⟨e, by cases u; simp [path_for_log, hv, he]⟩

/-! ## Claims -/

/-- C1: for every `StreamKey`, `path_for_log` either returns a path that
is a descendant of (component-wise prefixed by) the configured root or
fails with an error: the joined path is re-checked against the root and
resolution fails closed otherwise. -/
theorem C1_path_resolution_fail_closed (root : String) (f : LogFrom) (p : List Char)
    (h : path_for_log root f = Except.ok p) : pathStartsWith p root.data = true := by
  simp only [path_for_log] at h
  split at h
  · exact Except.noConfusion h
  · split at h
    · exact Except.noConfusion h
    · split at h
      case isTrue hcond =>
        rw [Except.ok.injEq] at h
        rw [← h]
        exact hcond
      case isFalse => exact Except.noConfusion h

/-- C1 witness: a concrete resolution succeeds and its result is
prefixed by the root. -/
theorem C1_witness : pathStartsWith logpathFoo "/logs".data = true :=
  C1_path_resolution_fail_closed "/logs" fromFoo logpathFoo (by decide)

/-- C2: a routing key or attempt id segment whose parsed components are
empty or contain a non-normal component (`..`, `.`, an absolute prefix,
a separators-only segment, or traversal) makes the whole resolution fail
with an error before any filesystem access: `path_for_log` fails,
`handle_for` and `write_metadata` fail and leave the filesystem — files
and directories alike — untouched. -/
theorem C2_invalid_segments_rejected (fs : Fs) (self : LogMessageCollector) (f : LogFrom)
    (hbad : (pathComponents f.routing_key.data = [] ∨
             ¬ (pathComponents f.routing_key.data).all isNormalComp = true) ∨
            (pathComponents f.attempt_id.data = [] ∨
             ¬ (pathComponents f.attempt_id.data).all isNormalComp = true))
    (hnc : self.handles.containsKey f = false) :
    (∃ e, path_for_log self.log_root f = Except.error e) ∧
    (handle_for fs self f).1 = fs ∧
    (∃ e, (handle_for fs self f).2 = Except.error e) ∧
    (∀ d, (write_metadata fs self f d).1 = fs ∧
          ∃ e, (write_metadata fs self f d).2 = Except.error e) := by
  obtain ⟨e, he⟩ := path_for_log_error_of_bad self.log_root f hbad
  have hh : handle_for fs self f = (fs, Except.error e) := by
    simp [handle_for, hnc, he]
  refine ⟨⟨e, he⟩, by rw [hh], ⟨e, by rw [hh]⟩, fun d => ?_⟩
  have hm : write_metadata fs self f d = (fs, Except.error e) := by
    simp [write_metadata, path_for_metadata, he]
  exact ⟨by rw [hm], e, by rw [hm]⟩

/-- C2 witness: the traversal key `../etc` is rejected on a fresh
collector without touching the filesystem. -/
theorem C2_witness :
    (∃ e, path_for_log workerFoo.log_root ⟨"../etc", "xyz"⟩ = Except.error e) ∧
    (handle_for Fs.empty workerFoo ⟨"../etc", "xyz"⟩).1 = Fs.empty ∧
    (∃ e, (handle_for Fs.empty workerFoo ⟨"../etc", "xyz"⟩).2 = Except.error e) ∧
    (∀ d, (write_metadata Fs.empty workerFoo ⟨"../etc", "xyz"⟩ d).1 = Fs.empty ∧
          ∃ e, (write_metadata Fs.empty workerFoo ⟨"../etc", "xyz"⟩ d).2 = Except.error e) :=
  C2_invalid_segments_rejected Fs.empty workerFoo ⟨"../etc", "xyz"⟩
    (Or.inl (Or.inr (by decide))) (by decide)

/-- C7 counterexample: both segments of `(rk, a.b)` validate, yet the
sidecar path is obtained by replacing the extension, so it is not the
log path with `.metadata.json` appended. -/
theorem C7_counterexample :
    validate_path_segment "rk".data = Except.ok () ∧
    validate_path_segment "a.b".data = Except.ok () ∧
    path_for_log "/logs" ⟨"rk", "a.b"⟩ = Except.ok "/logs/rk/a.b".data ∧
    path_for_metadata "/logs" ⟨"rk", "a.b"⟩ = Except.ok "/logs/rk/a.metadata.json".data ∧
    "/logs/rk/a.metadata.json".data ≠ "/logs/rk/a.b".data ++ ".metadata.json".data := by
  refine ⟨by decide, by decide, by decide, by decide, by decide⟩

/-- C7 (amended): for every `StreamKey` whose segments validate,
`path_for_metadata` is the log path with its extension replaced by
`metadata.json`; in particular, whenever the attempt id contains no dot
(and no separator), the sidecar path is exactly the log path with the
fixed suffix `.metadata.json` appended. -/
theorem C7_metadata_path_amended (root : String) (f : LogFrom)
    (h1 : validate_path_segment f.routing_key.data = Except.ok ())
    (h2 : validate_path_segment f.attempt_id.data = Except.ok ())
    (hdot : '.' ∉ f.attempt_id.data) (hslash : '/' ∉ f.attempt_id.data) :
    path_for_log root f =
      Except.ok (pushPath (pushPath root.data f.routing_key.data) f.attempt_id.data) ∧
    path_for_metadata root f =
      Except.ok (pushPath (pushPath root.data f.routing_key.data) f.attempt_id.data ++
                 ".metadata.json".data) := by
  have hlog := path_for_log_ok root f h1 h2
  refine ⟨hlog, ?_⟩
  simp only [path_for_metadata, hlog]
  have haid_ne : f.attempt_id.data ≠ [] := (validate_ok_shape _ h2).1
  have hrk_ne : f.routing_key.data ≠ [] := (validate_ok_shape _ h1).1
  have hloc1_ne : pushPath root.data f.routing_key.data ≠ [] :=
    pushPath_ne_nil _ _ hrk_ne
  set loc1 := pushPath root.data f.routing_key.data with hloc1
  have haid_head : f.attempt_id.data.head? ≠ some '/' := by
    intro hh
    cases hx : f.attempt_id.data with
    | nil => rw [hx] at hh; cases hh
    | cons c t =>
      rw [hx] at hh
      have : c = '/' := by simpa using hh
      exact hslash (by rw [hx, this]; exact List.mem_cons_self _ _)
  rw [Except.ok.injEq]
  show setExtension (pushPath loc1 f.attempt_id.data) "metadata.json".data =
    pushPath loc1 f.attempt_id.data ++ '.' :: "metadata.json".data
  unfold pushPath
  rw [if_neg haid_head, if_neg hloc1_ne]
  by_cases hl : loc1.getLast? = some '/'
  · rw [if_pos hl]
    refine setExtension_plain _ f.attempt_id.data loc1.reverse _ (by simp) haid_ne hdot hslash ?_
    rw [List.head?_reverse]
    exact hl
  · rw [if_neg hl]
    refine setExtension_plain _ f.attempt_id.data ('/' :: loc1.reverse) _ (by simp) haid_ne hdot hslash rfl

/-- C7 amended witness: a concrete dot-free attempt id gets the sidecar
suffix appended. -/
theorem C7_witness :
    path_for_log "/logs" fromFoo =
      Except.ok (pushPath (pushPath "/logs".data "routing-key-foo".data) "attempt-id-foo".data) ∧
    path_for_metadata "/logs" fromFoo =
      Except.ok (pushPath (pushPath "/logs".data "routing-key-foo".data) "attempt-id-foo".data ++
                 ".metadata.json".data) :=
  C7_metadata_path_amended "/logs" fromFoo (by decide) (by decide) (by decide) (by decide)

/-! ## Helper lemmas about the LRU cache -/

theorem no_key_of_not_contains {α β : Type} [DecidableEq α] (c : LruCache α β) (k : α)
    (h : c.containsKey k = false) : ∀ e ∈ c.entries, e.1 ≠ k := by
  intro e he hh
  have hany : c.entries.any (fun e => decide (e.1 = k)) = true :=
    List.any_eq_true.mpr ⟨e, he, by simp [hh]⟩
  unfold LruCache.containsKey at h
  rw [h] at hany
  exact Bool.false_ne_true hany

theorem find_of_not_contains {α β : Type} [DecidableEq α] (c : LruCache α β) (k : α)
    (h : c.containsKey k = false) :
    c.entries.find? (fun e => decide (e.1 = k)) = none := by
  rw [List.find?_eq_none]
  intro x hx
  simp only [decide_eq_true_eq]
  exact no_key_of_not_contains c k h x hx

theorem filter_of_no_key {α β : Type} [DecidableEq α] (l : List (α × β)) (k : α)
    (h : ∀ e ∈ l, e.1 ≠ k) :
    l.filter (fun e => !(decide (e.1 = k))) = l := by
  rw [List.filter_eq_self]
  intro a ha
  simpa using h a ha

theorem promote_capacity {α β : Type} [DecidableEq α] (c : LruCache α β) (k : α) :
    (c.promote k).capacity = c.capacity := by
  unfold LruCache.promote
  cases c.entries.find? (fun e => decide (e.1 = k)) <;> rfl

theorem promote_length_le {α β : Type} [DecidableEq α] (c : LruCache α β) (k : α) :
    (c.promote k).entries.length ≤ c.entries.length := by
  unfold LruCache.promote
  cases hf : c.entries.find? (fun e => decide (e.1 = k)) with
  | none => exact Nat.le_refl _
  | some e =>
    have hmem := List.find?_some hf
    have hin : e ∈ c.entries := List.mem_of_find?_eq_some hf
    have hlt : (c.entries.filter (fun e2 => !(decide (e2.1 = k)))).length <
        c.entries.length := by
      apply List.length_filter_lt_length_iff_exists.mpr
      exact ⟨e, hin, by simpa using hmem⟩
    simpa using hlt

/-- C5: the handle cache never exceeds its construction capacity: a
successful `handle_for` preserves the capacity and the size bound; when
the cache is full and the key is absent, the least-recently-used entry
(the last) is evicted and released while the other entries and the fresh
handle remain; accessing a present key promotes it to most-recent and
touches neither the filesystem nor the other entries. -/
theorem C5_lru_cache_bounded
    (fs : Fs) (self : LogMessageCollector) (f : LogFrom) :
    (∀ fs1 self1, handle_for fs self f = (fs1, Except.ok self1) →
       self1.handles.capacity = self.handles.capacity ∧
       (self.handles.entries.length ≤ self.handles.capacity →
        self1.handles.entries.length ≤ self.handles.capacity)) ∧
    (∀ p, self.handles.containsKey f = false →
       path_for_log self.log_root f = Except.ok p →
       fs.ioFail.contains p = false →
       self.handles.entries.length = self.handles.capacity →
       1 ≤ self.handles.capacity →
       (handle_for fs self f).2 =
         Except.ok { self with
           handles := ⟨self.handles.capacity,
                       (f, LineWriter.new p) :: self.handles.entries.dropLast⟩ }) ∧
    (∀ v l1 l2, self.handles.entries = l1 ++ (f, v) :: l2 →
       (∀ e ∈ l1 ++ l2, e.1 ≠ f) →
       handle_for fs self f =
         (fs, Except.ok { self with handles := ⟨self.handles.capacity, (f, v) :: (l1 ++ l2)⟩ })) := by
  have hinsert_entries : ∀ p,
      self.handles.containsKey f = false →
      self.handles.entries.length = self.handles.capacity →
      1 ≤ self.handles.capacity →
      (self.handles.insertLru f (LineWriter.new p)).entries =
        (f, LineWriter.new p) :: self.handles.entries.dropLast := by
    intro p hnc hfull hcap
    have hnokey := no_key_of_not_contains self.handles f hnc
    unfold LruCache.insertLru
    rw [filter_of_no_key _ _ hnokey]
    obtain ⟨k, hk⟩ : ∃ k, self.handles.capacity = k + 1 :=
      ⟨self.handles.capacity - 1, by omega⟩
    rw [hk, List.take_succ_cons]
    have hk2 : k = self.handles.entries.length - 1 := by omega
    rw [hk2, ← List.dropLast_eq_take]
  refine ⟨?_, ?_, ?_⟩
  · intro fs1 self1 h
    unfold handle_for at h
    split at h
    · injection h with h1 h2
      injection h2 with h3
      rw [← h3]
      exact ⟨promote_capacity _ _, fun hb => le_trans (promote_length_le _ _) hb⟩
    · split at h
      · injection h with h1 h2
        exact Except.noConfusion h2
      · split at h
        · injection h with h1 h2
          exact Except.noConfusion h2
        · split at h
          · injection h with h1 h2
            injection h2 with h3
            rw [← h3]
            refine ⟨promote_capacity _ _, fun _ => ?_⟩
            refine le_trans (promote_length_le _ _) ?_
            exact List.length_take_le _ _
          · injection h with h1 h2
            exact Except.noConfusion h2
  · intro p hnc hp hio hfull hcap
    have hnokey := no_key_of_not_contains self.handles f hnc
    have hins := hinsert_entries p hnc hfull hcap
    have hopen : open_file fs p =
        ({ fs with dirs := parentOfPath p :: fs.dirs,
                   files := if ((fs.files.find? (fun e => decide (e.1 = p))).isSome)
                            then fs.files else fs.files ++ [(p, "")] },
         Except.ok p) := by
      unfold open_file
      rw [if_neg (by rw [hio]; exact Bool.false_ne_true)]
    have hck : (self.handles.insertLru f (LineWriter.new p)).containsKey f = true := by
      unfold LruCache.containsKey
      rw [hins]
      simp
    have hpromote : (self.handles.insertLru f (LineWriter.new p)).promote f =
        ⟨self.handles.capacity, (f, LineWriter.new p) :: self.handles.entries.dropLast⟩ := by
      unfold LruCache.promote
      rw [hins, List.find?_cons_of_pos _ (by simp)]
      rw [List.filter_cons_of_neg (by simp)]
      rw [filter_of_no_key _ _ (fun e he => hnokey e (List.dropLast_subset _ he))]
      rfl
    unfold handle_for
    rw [if_neg (by rw [hnc]; exact Bool.false_ne_true)]
    simp only [hp, hopen, hck, if_true, hpromote]
  · intro v l1 l2 hentries hno
    have hck : self.handles.containsKey f = true := by
      apply List.any_eq_true.mpr
      exact ⟨(f, v), by rw [hentries]; exact List.mem_append_right _ (List.mem_cons_self _ _),
             by simp⟩
    have hpromote : self.handles.promote f =
        ⟨self.handles.capacity, (f, v) :: (l1 ++ l2)⟩ := by
      unfold LruCache.promote
      rw [hentries, List.find?_append]
      rw [List.find?_eq_none.mpr (fun x hx => by
            simp only [decide_eq_true_eq]
            exact hno x (List.mem_append_left _ hx))]
      rw [List.find?_cons_of_pos _ (by simp), Option.none_or]
      rw [List.filter_append, List.filter_cons_of_neg (by simp)]
      rw [filter_of_no_key _ _ (fun e he => hno e (List.mem_append_left _ he)),
          filter_of_no_key _ _ (fun e he => hno e (List.mem_append_right _ he))]
    unfold handle_for
    rw [if_pos hck, hpromote]

/-- C5 witness: with a full cache of capacity 2, opening a third key
evicts the least-recently-used entry; re-accessing the stale `rk-b`
entry promotes it; capacity is preserved. -/
theorem C5_witness :
    ((handle_for Fs.empty workerFull ⟨"rk-c", "aid-c"⟩).2 =
       Except.ok { workerFull with
         handles := ⟨workerFull.handles.capacity,
                     (⟨"rk-c", "aid-c"⟩, LineWriter.new "/logs/rk-c/aid-c".data) ::
                     workerFull.handles.entries.dropLast⟩ }) ∧
    (handle_for Fs.empty workerFull ⟨"rk-b", "aid-b"⟩ =
       (Fs.empty, Except.ok { workerFull with
         handles := ⟨workerFull.handles.capacity,
                     (⟨"rk-b", "aid-b"⟩, ⟨"/logs/rk-b/aid-b".data, 0⟩) ::
                     ([(⟨"rk-a", "aid-a"⟩, ⟨"/logs/rk-a/aid-a".data, 0⟩)] ++ [])⟩ })) ∧
    ({ workerFull with
       handles := (⟨workerFull.handles.capacity,
                    (⟨"rk-b", "aid-b"⟩, ⟨"/logs/rk-b/aid-b".data, 0⟩) ::
                    ([(⟨"rk-a", "aid-a"⟩, ⟨"/logs/rk-a/aid-a".data, 0⟩)] ++ [])⟩ :
                   LruCache LogFrom LineWriter) } :
       LogMessageCollector).handles.capacity = workerFull.handles.capacity := by
  refine ⟨?_, ?_, ?_⟩
  · exact (C5_lru_cache_bounded Fs.empty workerFull ⟨"rk-c", "aid-c"⟩).2.1
      "/logs/rk-c/aid-c".data (by decide) (by decide) (by decide) (by decide) (by decide)
  · exact (C5_lru_cache_bounded Fs.empty workerFull ⟨"rk-b", "aid-b"⟩).2.2
      ⟨"/logs/rk-b/aid-b".data, 0⟩ [(⟨"rk-a", "aid-a"⟩, ⟨"/logs/rk-a/aid-a".data, 0⟩)] []
      (by decide) (by decide)
  · exact ((C5_lru_cache_bounded Fs.empty workerFull ⟨"rk-b", "aid-b"⟩).1 Fs.empty _
      ((C5_lru_cache_bounded Fs.empty workerFull ⟨"rk-b", "aid-b"⟩).2.2
        ⟨"/logs/rk-b/aid-b".data, 0⟩ [(⟨"rk-a", "aid-a"⟩, ⟨"/logs/rk-a/aid-a".data, 0⟩)] []
        (by decide) (by decide))).1

/-- C10: segment validation accepts any segment all of whose parsed
components are normal names, including multi-component segments such as
`foo/bar` and `foo.bar/123`, which resolve to nested subdirectories
beneath the root; a segment with an interior `.` component such as
`foo/./bar` is accepted because the interior dot is normalized away
during component parsing. -/
theorem C10_multi_component_segments :
    validate_path_segment "foo/bar".data = Except.ok () ∧
    validate_path_segment "foo.bar/123".data = Except.ok () ∧
    validate_path_segment "foo/./bar".data = Except.ok () ∧
    pathComponents "foo/./bar".data =
      [PathComponent.normal "foo".data, PathComponent.normal "bar".data] ∧
    path_for_log "/logs" ⟨"foo/bar", "123"⟩ = Except.ok "/logs/foo/bar/123".data ∧
    pathStartsWith "/logs/foo/bar/123".data "/logs".data = true := by
  refine ⟨by decide, by decide, by decide, by decide, by decide, by decide⟩

/-- C3: on a fresh stream key (cursor 0) a Chunk with line number
`n ≥ 1` and text `t` produces `n - 1` blank terminated lines, then `t`,
then one terminator, and sets the cursor to `n` (the wire's 1-based
number mapped to the writer's zero-based index by subtracting one);
concretely, line 1 `line-1` then line 5 `line-5` yield
`line-1\n\n\n\nline-5\n`, and line 3 `line-3` first yields
`\n\nline-3\n`. -/
theorem C3_sparse_writes :
    (∀ (n : Nat) (t : String), 1 ≤ n →
       consumer Fs.empty workerFoo (chunkJob n t) =
         (⟨[(logpathFoo, String.mk (List.replicate (n - 1) '\n') ++ t ++ "\n")],
           ["/logs/routing-key-foo".data], []⟩,
          Except.ok ({ workerFoo with handles := ⟨3, [(fromFoo, ⟨logpathFoo, n⟩)]⟩ },
                     [Action.Ack]))) ∧
    (∃ fs1 self1 fs2 self2,
       consumer Fs.empty workerFoo (chunkJob 1 "line-1") =
         (fs1, Except.ok (self1, [Action.Ack])) ∧
       consumer fs1 self1 (chunkJob 5 "line-5") = (fs2, Except.ok (self2, [Action.Ack])) ∧
       fileContent fs2 logpathFoo = some "line-1\n\n\n\nline-5\n") ∧
    (∃ fs1 self1,
       consumer Fs.empty workerFoo (chunkJob 3 "line-3") =
         (fs1, Except.ok (self1, [Action.Ack])) ∧
       fileContent fs1 logpathFoo = some "\n\nline-3\n") := by
  refine ⟨?_, ?_, ?_⟩
  · intro n t hn
    obtain ⟨m, rfl⟩ : ∃ m, n = m + 1 := ⟨n - 1, by omega⟩
    rfl
  · exact ⟨_, _, _, _, rfl, rfl, by decide⟩
  · exact ⟨_, _, rfl, by decide⟩

/-- C3 witness: the general formula applied at line number 3. -/
theorem C3_witness :
    consumer Fs.empty workerFoo (chunkJob 3 "line-3") =
      (⟨[(logpathFoo, String.mk (List.replicate (3 - 1) '\n') ++ "line-3" ++ "\n")],
        ["/logs/routing-key-foo".data], []⟩,
       Except.ok ({ workerFoo with handles := ⟨3, [(fromFoo, ⟨logpathFoo, 3⟩)]⟩ },
                  [Action.Ack])) :=
  C3_sparse_writes.1 3 "line-3" (by decide)

/-- C6: dispatching the repository's Start event for
`(routing-key-foo, attempt-id-foo)` produces exactly the fixed-order
sidecar document; the sidecar is opened append-only create-if-missing,
so dispatching the same Start event again concatenates a second copy
instead of overwriting. -/
theorem C6_metadata_sidecar :
    serializeBuildLogStart startEvtFoo = startJsonFoo ∧
    (∃ fs1 fs2,
       consumer Fs.empty workerFoo startJobFoo = (fs1, Except.ok (workerFoo, [Action.Ack])) ∧
       fileContent fs1 metapathFoo = some startJsonFoo ∧
       consumer fs1 workerFoo startJobFoo = (fs2, Except.ok (workerFoo, [Action.Ack])) ∧
       fileContent fs2 metapathFoo = some (startJsonFoo ++ startJsonFoo)) := by
  exact ⟨by decide, ⟨_, _, rfl, by decide, rfl, by decide⟩⟩

/-- C8: every message that completes dispatch without a fatal error
yields exactly the single-element action list `[Ack]` (Start, Chunk and
Finish alike), and a Finish message performs no write or state change
while still being acknowledged. -/
theorem C8_ack_contract :
    (∀ fs self job fs1 self1 acts,
       consumer fs self job = (fs1, Except.ok (self1, acts)) → acts = [Action.Ack]) ∧
    (∀ fs self f r,
       consumer fs self ⟨f, MsgType.Finish r⟩ = (fs, Except.ok (self, [Action.Ack]))) := by
  constructor
  · intro fs self job fs1 self1 acts h
    rcases job with ⟨f, msg⟩
    cases msg with
    | Start s =>
      simp only [consumer] at h
      split at h
      · injection h with h1 h2
        injection h2 with h3
        injection h3 with h4 h5
        exact h5.symm
      · injection h with h1 h2
        exact Except.noConfusion h2
    | Msg m =>
      simp only [consumer] at h
      split at h
      · injection h with h1 h2
        exact Except.noConfusion h2
      · injection h with h1 h2
        injection h2 with h3
        injection h3 with h4 h5
        exact h5.symm
    | Finish r =>
      simp only [consumer] at h
      injection h with h1 h2
      injection h2 with h3
      injection h3 with h4 h5
      exact h5.symm
  · intro fs self f r
    rfl

/-- C8 witness: a dispatched Finish message is acknowledged with exactly
one Ack and leaves state and filesystem unchanged. -/
theorem C8_witness :
    ([Action.Ack] : List Action) = [Action.Ack] ∧
    consumer Fs.empty workerFoo ⟨fromFoo, MsgType.Finish ⟨"my-attempt-id"⟩⟩ =
      (Fs.empty, Except.ok (workerFoo, [Action.Ack])) :=
  ⟨C8_ack_contract.1 Fs.empty workerFoo ⟨fromFoo, MsgType.Finish ⟨"my-attempt-id"⟩⟩
     Fs.empty workerFoo [Action.Ack] rfl,
   C8_ack_contract.2 Fs.empty workerFoo fromFoo ⟨"my-attempt-id"⟩⟩

/-- C9: every internal failure during dispatch surfaces to the caller as
a descriptive error value: a path validation error or an open I/O error
during a Start or Chunk dispatch makes `consumer` return the error
branch (never a swallowed success), while the Finish no-op is the only
intentionally swallowed case and still succeeds with an Ack. -/
theorem C9_error_propagation :
    (∀ fs self f d,
       ((pathComponents f.routing_key.data = [] ∨
         ¬ (pathComponents f.routing_key.data).all isNormalComp = true) ∨
        (pathComponents f.attempt_id.data = [] ∨
         ¬ (pathComponents f.attempt_id.data).all isNormalComp = true)) →
       ∃ e, consumer fs self ⟨f, MsgType.Start d⟩ =
         (fs, Except.error ("failed to write metadata: " ++ e))) ∧
    (∀ fs self f d mp, path_for_metadata self.log_root f = Except.ok mp →
       fs.ioFail.contains mp = true →
       ∃ fs1 e, consumer fs self ⟨f, MsgType.Start d⟩ = (fs1, Except.error e)) ∧
    (∀ fs self f m,
       ((pathComponents f.routing_key.data = [] ∨
         ¬ (pathComponents f.routing_key.data).all isNormalComp = true) ∨
        (pathComponents f.attempt_id.data = [] ∨
         ¬ (pathComponents f.attempt_id.data).all isNormalComp = true)) →
       self.handles.containsKey f = false →
       ∃ e, consumer fs self ⟨f, MsgType.Msg m⟩ = (fs, Except.error e)) ∧
    (∀ fs self f m p, self.handles.containsKey f = false →
       path_for_log self.log_root f = Except.ok p → fs.ioFail.contains p = true →
       ∃ fs1 e, consumer fs self ⟨f, MsgType.Msg m⟩ = (fs1, Except.error e)) ∧
    (∀ fs self f r,
       consumer fs self ⟨f, MsgType.Finish r⟩ = (fs, Except.ok (self, [Action.Ack]))) := by
  refine ⟨?_, ?_, ?_, ?_, fun fs self f r => rfl⟩
  · intro fs self f d hbad
    obtain ⟨e, he⟩ := path_for_log_error_of_bad self.log_root f hbad
    exact ⟨e, by simp [consumer, write_metadata, path_for_metadata, he]⟩
  · intro fs self f d mp hmp hio
    refine ⟨{ fs with dirs := parentOfPath mp :: fs.dirs },
            "failed to write metadata: " ++ "Failed to open the file", ?_⟩
    have hopen : open_file fs mp =
        ({ fs with dirs := parentOfPath mp :: fs.dirs },
         Except.error "Failed to open the file") := by
      unfold open_file
      rw [if_pos hio]
    simp [consumer, write_metadata, hmp, hopen]
  · intro fs self f m hbad hnc
    obtain ⟨e, he⟩ := path_for_log_error_of_bad self.log_root f hbad
    exact ⟨e, by simp [consumer, handle_for, hnc, he]⟩
  · intro fs self f m p hnc hp hio
    refine ⟨{ fs with dirs := parentOfPath p :: fs.dirs }, "Failed to open the file", ?_⟩
    have hopen : open_file fs p =
        ({ fs with dirs := parentOfPath p :: fs.dirs },
         Except.error "Failed to open the file") := by
      unfold open_file
      rw [if_pos hio]
    simp [consumer, handle_for, hnc, hp, hopen]

/-- C9 witness: a Start event for a traversal key fails with the
metadata error, and a Finish event is the lone swallowed no-op. -/
theorem C9_witness :
    (∃ e, consumer Fs.empty workerFoo ⟨⟨"..", ".."⟩, MsgType.Start startEvtFoo⟩ =
       (Fs.empty, Except.error ("failed to write metadata: " ++ e))) ∧
    consumer Fs.empty workerFoo ⟨fromFoo, MsgType.Finish ⟨"a"⟩⟩ =
      (Fs.empty, Except.ok (workerFoo, [Action.Ack])) :=
  ⟨C9_error_propagation.1 Fs.empty workerFoo ⟨"..", ".."⟩ startEvtFoo
     (Or.inl (Or.inr (by decide))),
   C9_error_propagation.2.2.2.2 Fs.empty workerFoo fromFoo ⟨"a"⟩⟩

/-- C4: message classification tries the three shapes in the fixed order
Chunk, Start, Finish; the first successful decode wins and the result
pairs the decoded event with a `StreamKey` built from the delivery
routing key and the event's own attempt id; if all three decoders fail
the result is a decode error, and classification has no side effects
(it is a pure function of routing key and payload). -/
theorem C4_classifier_order (dMsg : List Nat → Option BuildLogMsg)
    (dStart : List Nat → Option BuildLogStart) (dFinish : List Nat → Option BuildResult)
    (rk : String) (body : List Nat) :
    (∀ m, dMsg body = some m →
       msg_to_job dMsg dStart dFinish rk body =
         Except.ok ⟨⟨rk, m.attempt_id⟩, MsgType.Msg m⟩) ∧
    (∀ s, dMsg body = none → dStart body = some s →
       msg_to_job dMsg dStart dFinish rk body =
         Except.ok ⟨⟨rk, s.attempt_id⟩, MsgType.Start s⟩) ∧
    (∀ r, dMsg body = none → dStart body = none → dFinish body = some r →
       msg_to_job dMsg dStart dFinish rk body =
         Except.ok ⟨⟨rk, r.attempt_id⟩, MsgType.Finish r⟩) ∧
    (dMsg body = none → dStart body = none → dFinish body = none →
       msg_to_job dMsg dStart dFinish rk body = Except.error "failed to decode job") := by
  refine ⟨?_, ?_, ?_, ?_⟩ <;> intros <;> simp_all [msg_to_job]

/-- C4 witness: a decoder that recognizes a Chunk shape classifies it as
Msg with the stream key `(rk, attempt id)`, and all-failing decoders
produce the decode error. -/
theorem C4_witness :
    msg_to_job (fun _ => some ⟨"sys", "id", "att", 1, "out"⟩) (fun _ => none) (fun _ => none)
      "rk" [] =
      Except.ok ⟨⟨"rk", "att"⟩, MsgType.Msg ⟨"sys", "id", "att", 1, "out"⟩⟩ ∧
    msg_to_job (fun _ => (none : Option BuildLogMsg)) (fun _ => none) (fun _ => none)
      "rk" [] = Except.error "failed to decode job" :=
  ⟨(C4_classifier_order (fun _ => some ⟨"sys", "id", "att", 1, "out"⟩) (fun _ => none)
      (fun _ => none) "rk" []).1 ⟨"sys", "id", "att", 1, "out"⟩ rfl,
   (C4_classifier_order (fun _ => none) (fun _ => none) (fun _ => none) "rk" []).2.2.2
     rfl rfl rfl⟩

end Ofborg
